import Mathlib

/-!
# Verification of ava-dataset-utils: clip sampling, trimming and validation

Shallow embedding of the core of `ava_sampler.py`, `ava_trimmer.py` and
`video_checker.py`.  Timestamps and durations (Python floats) are modelled as
rationals; Python `int()` truncation, `statistics.median`, `sorted(set(...))`,
`collections.Counter`, the greedy clustering loop, the `seen`-set task
deduplication, the f-string output-filename format, and the effectful worker
functions (with the filesystem and the external av/ffmpeg/ffprobe calls
abstracted as oracles) are each embedded separately below.
-/

namespace Ava

/-! ## Python primitives -/

/-- Python `int(x)` on a number: truncation toward zero.  On a rational in
lowest terms with positive denominator this is the truncating division of the
numerator by the denominator. -/
def pyTrunc (q : ℚ) : ℤ := q.num.tdiv q.den

/-- Python `sorted(l)`: the list sorted in nondecreasing order. -/
def pySorted (l : List ℚ) : List ℚ := l.insertionSort (· ≤ ·)

/-- Python `sorted(set(l))` as it appears in `cluster_timestamps_with_duration`:
the distinct values of `l`, sorted increasingly. -/
def dedupSort (l : List ℚ) : List ℚ := pySorted l.dedup

/-- Python `min(l)` on a nonempty list (0 for the never-occurring empty case). -/
def listMinD : List ℚ → ℚ
  | [] => 0
  | h :: t => t.foldl min h

/-- Python `max(l)` on a nonempty list (0 for the never-occurring empty case). -/
def listMaxD : List ℚ → ℚ
  | [] => 0
  | h :: t => t.foldl max h

/-- The count of the most frequent element: the `freq` that
`Counter(cluster).most_common(1)[0]` reports (0 on the empty list). -/
def maxCount (l : List ℚ) : ℕ := (l.map (fun x => l.count x)).foldr max 0

/-- The most frequent element, ties broken by first occurrence: the `mode_ts`
that `Counter(cluster).most_common(1)[0]` reports (0 on the empty list). -/
def modeOf (l : List ℚ) : ℚ := (l.find? (fun x => l.count x == maxCount l)).getD 0

/-- Python `statistics.median(l)`: middle element of the sorted list when the
length is odd, mean of the two middle elements when even.  (The source only
applies it to nonempty clusters; the empty case defaults to 0 rather than
raising `StatisticsError`.) -/
def pyMedian (l : List ℚ) : ℚ :=
  let s := pySorted l
  let n := s.length
  if n % 2 = 1 then s.getD (n / 2) 0
  else (s.getD (n / 2 - 1) 0 + s.getD (n / 2) 0) / 2

/-! ## Temporal Clustering Engine (`cluster_timestamps_with_duration`) -/

/-- One iteration of the grouping loop of `cluster_timestamps_with_duration`:
state is `(clusters, current)`; `current[-1]` is `getLastD` (the default is
irrelevant: the source consults it only when `current` is nonempty). -/
def clusterStep (window : ℚ) (st : List (List ℚ) × List ℚ) (t : ℚ) :
    List (List ℚ) × List ℚ :=
  if st.2.isEmpty then (st.1, [t])
  else if t - st.2.getLastD 0 < window then (st.1, st.2 ++ [t])
  else (st.1 ++ [st.2], [t])

/-- The grouping phase of `cluster_timestamps_with_duration`: the loop over the
timestamps followed by the trailing `if current: clusters.append(current)`. -/
def groupTimestamps (window : ℚ) (ts : List ℚ) : List (List ℚ) :=
  let st := ts.foldl (clusterStep window) ([], [])
  if st.2.isEmpty then st.1 else st.1 ++ [st.2]

/-- Recursive rendering of the grouping loop, used for proofs: `cur ++ [a]` is
the open cluster, whose last element `a` is tracked explicitly. -/
def gatherGo (window : ℚ) (cur : List ℚ) (a : ℚ) : List ℚ → List (List ℚ)
  | [] => [cur ++ [a]]
  | t :: rest =>
    if t - a < window then gatherGo window (cur ++ [a]) t rest
    else (cur ++ [a]) :: gatherGo window [] t rest

/-- `cluster_timestamps_with_duration(timestamps, window, min_duration,
max_duration, buffer)`: sort-deduplicate, group greedily, then derive one
`(center, duration)` pair per cluster. -/
def cluster_timestamps_with_duration (timestamps : List ℚ)
    (window min_duration max_duration buffer : ℚ) : List (ℤ × ℚ) :=
  let ts := dedupSort timestamps
  let clusters := groupTimestamps window ts
  clusters.map (fun cluster =>
    let start := listMinD cluster
    let stop := listMaxD cluster
    let d0 := max min_duration (stop - start + buffer)
    let duration := min d0 max_duration
    let center_ts :=
      if 1 < maxCount cluster then pyTrunc (modeOf cluster)
      else pyTrunc (pyMedian cluster)
    (center_ts, duration))

/-! ## Task Deduplicator (the `tasks`/`seen` loop of the main section) -/

/-- A dedup key / ClipSpec: `(video_id, center_ts, duration)` with the integer
center and the possibly fractional duration, exactly as appended to `tasks`. -/
abbrev ClipKey := String × ℤ × ℚ

/-- One iteration of the dedup loop: the `seen` set is modelled as the list of
keys added so far (membership is all the source uses it for). -/
def dedupStep (st : List ClipKey × List ClipKey) (key : ClipKey) :
    List ClipKey × List ClipKey :=
  if key ∈ st.1 then st else (key :: st.1, st.2 ++ [key])

/-- The Task Deduplicator: folds the dedup loop over the incoming keys and
returns the order-preserving `tasks` list. -/
def dedupTasks (l : List ClipKey) : List ClipKey :=
  (l.foldl dedupStep ([], [])).2

/-- Recursive rendering of the dedup loop, used for proofs. -/
def firstOccur (seen : List ClipKey) : List ClipKey → List ClipKey
  | [] => []
  | k :: ks =>
    if k ∈ seen then firstOccur seen ks else k :: firstOccur (k :: seen) ks

/-- Declarative form of first-occurrence deduplication: keep the head, then
recurse on the tail with all later copies of the head dropped. -/
def firstOccurrences : List ClipKey → List ClipKey
  | [] => []
  | k :: ks => k :: firstOccurrences (ks.filter (fun y => y ≠ k))
termination_by l => l.length
decreasing_by
  simp only [List.length_cons]
  exact Nat.lt_succ_of_le (List.length_filter_le _ _)

/-- The full task construction of the sampler's main section: cluster each
video's timestamps, tag pairs with the video id, and deduplicate globally
(`videoData` lists the `video_timestamps` dict in its iteration order). -/
def sampler_tasks (videoData : List (String × List ℚ))
    (window min_duration max_duration buffer : ℚ) : List ClipKey :=
  dedupTasks (videoData.flatMap (fun v =>
    (cluster_timestamps_with_duration v.2 window min_duration max_duration
        buffer).map (fun cd => (v.1, cd.1, cd.2))))

/-! ## The output filename (`extract_clip`) -/

/-- Decimal digit character, the embedding of how Python renders one digit. -/
def digitChar (d : ℕ) : Char :=
  if d = 0 then '0' else if d = 1 then '1' else if d = 2 then '2'
  else if d = 3 then '3' else if d = 4 then '4' else if d = 5 then '5'
  else if d = 6 then '6' else if d = 7 then '7' else if d = 8 then '8'
  else '9'

/-- Worker for `natDecRepr`: accumulates digits least-significant first; the
fuel argument only bounds the recursion (any fuel above the digit count gives
the same answer). -/
def natDecAux : ℕ → ℕ → List Char → List Char
  | 0, _, acc => acc
  | fuel + 1, n, acc =>
    if n < 10 then digitChar n :: acc
    else natDecAux fuel (n / 10) (digitChar (n % 10) :: acc)

/-- The decimal digit string of a natural number (most significant first),
modelling Python `str` on a nonnegative integer. -/
def natDecRepr (n : ℕ) : List Char := natDecAux (n + 1) n []

/-- Python `str` on an `int`: optional minus sign, then decimal digits. -/
def intDecRepr (n : ℤ) : List Char :=
  if n < 0 then '-' :: natDecRepr n.natAbs else natDecRepr n.natAbs

/-- `f"{video_id}_{int(timestamp)}s_{int(duration)}s.mp4"` of `extract_clip`. -/
def output_filename (video_id : String) (timestamp duration : ℚ) : String :=
  video_id ++ "_" ++ ⟨intDecRepr (pyTrunc timestamp)⟩ ++ "s_" ++
    ⟨intDecRepr (pyTrunc duration)⟩ ++ "s.mp4"

/-- The output filename of a deduplicated task, as `extract_clip` computes it
from the `(video_id, timestamp, duration)` tuple it receives. -/
def key_filename (k : ClipKey) : String :=
  output_filename k.1 (k.2.1 : ℚ) k.2.2

/-! ## Lemmas on the grouping phase -/

theorem concat_isEmpty_false (l : List ℚ) (a : ℚ) : (l ++ [a]).isEmpty = false := by
  cases l <;> rfl

/-- The grouping fold, started on an open cluster `cur ++ [a]`, finishes as the
recursive `gatherGo` describes. -/
theorem foldl_clusterStep (w : ℚ) (rest : List ℚ) :
    ∀ (cs : List (List ℚ)) (cur : List ℚ) (a : ℚ),
    (if (rest.foldl (clusterStep w) (cs, cur ++ [a])).2.isEmpty
      then (rest.foldl (clusterStep w) (cs, cur ++ [a])).1
      else (rest.foldl (clusterStep w) (cs, cur ++ [a])).1 ++
        [(rest.foldl (clusterStep w) (cs, cur ++ [a])).2]) =
      cs ++ gatherGo w cur a rest := by
  induction rest with
  | nil =>
    intro cs cur a
    simp [gatherGo, concat_isEmpty_false]
  | cons t r ih =>
    intro cs cur a
    have hstep : clusterStep w (cs, cur ++ [a]) t =
        if t - a < w then (cs, (cur ++ [a]) ++ [t]) else (cs ++ [cur ++ [a]], [t]) := by
      unfold clusterStep
      simp [concat_isEmpty_false, List.getLastD_concat]
    by_cases hlt : t - a < w
    · simp only [List.foldl_cons, hstep, if_pos hlt, gatherGo]
      exact ih cs (cur ++ [a]) t
    · simp only [List.foldl_cons, hstep, if_neg hlt, gatherGo]
      have h2 := ih (cs ++ [cur ++ [a]]) [] t
      simp only [List.nil_append] at h2
      rw [h2]
      simp


theorem groupTimestamps_nil (w : ℚ) : groupTimestamps w [] = [] := rfl

theorem groupTimestamps_cons (w t : ℚ) (rest : List ℚ) :
    groupTimestamps w (t :: rest) = gatherGo w [] t rest := by
  unfold groupTimestamps
  have h1 : clusterStep w (([], []) : List (List ℚ) × List ℚ) t = ([], [t]) := by
    simp [clusterStep]
  have h2 := foldl_clusterStep w rest [] [] t
  simp only [List.nil_append] at h2
  simpa [h1] using h2

theorem gatherGo_flatten (w : ℚ) (rest : List ℚ) :
    ∀ (cur : List ℚ) (a : ℚ), (gatherGo w cur a rest).flatten = cur ++ a :: rest := by
  induction rest with
  | nil => intro cur a; simp [gatherGo]
  | cons t r ih =>
    intro cur a
    unfold gatherGo
    by_cases hlt : t - a < w
    · rw [if_pos hlt, ih (cur ++ [a]) t]
      simp
    · rw [if_neg hlt]
      simp [ih [] t]

/-- The clusters of the grouping phase concatenate, in order, to the input. -/
theorem groupTimestamps_flatten (w : ℚ) (ts : List ℚ) :
    (groupTimestamps w ts).flatten = ts := by
  cases ts with
  | nil => rfl
  | cons t rest => rw [groupTimestamps_cons, gatherGo_flatten]; rfl

theorem gatherGo_ne_nil (w : ℚ) (rest : List ℚ) :
    ∀ (cur : List ℚ) (a : ℚ) (c : List ℚ), c ∈ gatherGo w cur a rest → c ≠ [] := by
  induction rest with
  | nil =>
    intro cur a c hc
    simp only [gatherGo, List.mem_singleton] at hc
    subst hc
    simp
  | cons t r ih =>
    intro cur a c hc
    unfold gatherGo at hc
    by_cases hlt : t - a < w
    · rw [if_pos hlt] at hc
      exact ih (cur ++ [a]) t c hc
    · rw [if_neg hlt] at hc
      rcases List.mem_cons.1 hc with h | h
      · subst h; simp
      · exact ih [] t c h

/-- Every cluster the grouping phase emits is nonempty. -/
theorem groupTimestamps_ne_nil (w : ℚ) (ts : List ℚ) (c : List ℚ)
    (hc : c ∈ groupTimestamps w ts) : c ≠ [] := by
  cases ts with
  | nil => simp [groupTimestamps_nil] at hc
  | cons t rest =>
    rw [groupTimestamps_cons] at hc
    exact gatherGo_ne_nil w rest [] t c hc

theorem gatherGo_chain (w : ℚ) (rest : List ℚ) :
    ∀ (cur : List ℚ) (a : ℚ), List.Chain' (fun x y => y - x < w) (cur ++ [a]) →
      ∀ c ∈ gatherGo w cur a rest, List.Chain' (fun x y => y - x < w) c := by
  induction rest with
  | nil =>
    intro cur a hcur c hc
    simp only [gatherGo, List.mem_singleton] at hc
    subst hc
    exact hcur
  | cons t r ih =>
    intro cur a hcur c hc
    unfold gatherGo at hc
    by_cases hlt : t - a < w
    · rw [if_pos hlt] at hc
      refine ih (cur ++ [a]) t ?_ c hc
      rw [List.chain'_append]
      refine ⟨hcur, List.chain'_singleton t, ?_⟩
      intro x hx y hy
      simp only [List.getLast?_concat, Option.mem_def, Option.some.injEq] at hx
      simp only [List.head?_cons, Option.mem_def, Option.some.injEq] at hy
      subst hx; subst hy
      exact hlt
    · rw [if_neg hlt] at hc
      rcases List.mem_cons.1 hc with h | h
      · subst h; exact hcur
      · refine ih [] t ?_ c h
        simp


/-- Within every emitted cluster, each element is within `window` of its
predecessor (strictly): consecutive members joined the cluster because the
strict gap test succeeded. -/
theorem groupTimestamps_chain (w : ℚ) (ts : List ℚ) (c : List ℚ)
    (hc : c ∈ groupTimestamps w ts) : List.Chain' (fun x y => y - x < w) c := by
  cases ts with
  | nil => simp [groupTimestamps_nil] at hc
  | cons t rest =>
    rw [groupTimestamps_cons] at hc
    refine gatherGo_chain w rest [] t ?_ c hc
    simp

theorem gatherGo_first_head (w : ℚ) (rest : List ℚ) :
    ∀ (cur : List ℚ) (a : ℚ), ∃ c cs, gatherGo w cur a rest = c :: cs ∧
      c.head? = (cur ++ [a]).head? := by
  induction rest with
  | nil =>
    intro cur a
    exact ⟨cur ++ [a], [], rfl, rfl⟩
  | cons t r ih =>
    intro cur a
    unfold gatherGo
    by_cases hlt : t - a < w
    · rw [if_pos hlt]
      obtain ⟨c, cs, heq, hhead⟩ := ih (cur ++ [a]) t
      refine ⟨c, cs, heq, ?_⟩
      rw [hhead]
      cases cur <;> simp
    · rw [if_neg hlt]
      exact ⟨cur ++ [a], gatherGo w [] t r, rfl, rfl⟩

theorem gatherGo_boundary (w : ℚ) (rest : List ℚ) :
    ∀ (cur : List ℚ) (a : ℚ),
      List.Chain' (fun c₁ c₂ => ∀ x ∈ c₁.getLast?, ∀ y ∈ c₂.head?, w ≤ y - x)
        (gatherGo w cur a rest) := by
  induction rest with
  | nil => intro cur a; simp [gatherGo]
  | cons t r ih =>
    intro cur a
    unfold gatherGo
    by_cases hlt : t - a < w
    · rw [if_pos hlt]
      exact ih (cur ++ [a]) t
    · rw [if_neg hlt]
      rw [List.chain'_cons']
      refine ⟨?_, ih [] t⟩
      intro y hy x hx z hz
      obtain ⟨c, cs, heq, hhead⟩ := gatherGo_first_head w r [] t
      rw [heq] at hy
      simp only [List.head?_cons, Option.mem_def, Option.some.injEq] at hy
      subst hy
      simp only [List.nil_append, List.head?_cons] at hhead
      rw [hhead] at hz
      simp only [List.getLast?_concat, Option.mem_def, Option.some.injEq] at hx
      simp only [Option.mem_def, Option.some.injEq] at hz
      subst hx; subst hz
      linarith

/-- Consecutive emitted clusters are separated by at least `window`: the last
element of a cluster and the first element of the next differ by `≥ window`,
because the gap test failed there and opened a new cluster. -/
theorem groupTimestamps_boundary (w : ℚ) (ts : List ℚ) :
    List.Chain' (fun c₁ c₂ => ∀ x ∈ c₁.getLast?, ∀ y ∈ c₂.head?, w ≤ y - x)
      (groupTimestamps w ts) := by
  cases ts with
  | nil => simp [groupTimestamps_nil]
  | cons t rest =>
    rw [groupTimestamps_cons]
    exact gatherGo_boundary w rest [] t

/-! ## Lemmas on `sorted(set(...))` and the per-cluster computation -/

theorem dedupSort_nodup (l : List ℚ) : (dedupSort l).Nodup :=
  (List.perm_insertionSort _ _).nodup_iff.mpr (List.nodup_dedup l)

theorem dedupSort_mem (l : List ℚ) (a : ℚ) : a ∈ dedupSort l ↔ a ∈ l :=
  ((List.perm_insertionSort _ _).mem_iff).trans (List.mem_dedup)

theorem dedupSort_sorted (l : List ℚ) : List.Sorted (· < ·) (dedupSort l) := by
  have hle : List.Sorted (· ≤ ·) (dedupSort l) :=
    List.sorted_insertionSort (· ≤ ·) l.dedup
  have hnd : (dedupSort l).Nodup := dedupSort_nodup l
  exact List.Pairwise.imp₂ (fun a b hab hne => lt_of_le_of_ne hab hne) hle hnd

/-- Every cluster of the grouping phase applied to a deduplicated input has no
duplicates: it is a segment of the nodup concatenation. -/
theorem cluster_nodup (w : ℚ) (ts : List ℚ) (c : List ℚ)
    (hc : c ∈ groupTimestamps w (dedupSort ts)) : c.Nodup := by
  have hflat : (groupTimestamps w (dedupSort ts)).flatten.Nodup := by
    rw [groupTimestamps_flatten]
    exact dedupSort_nodup ts
  exact (List.nodup_flatten.1 hflat).1 c hc

theorem foldr_max_le_one (l : List ℕ) (h : ∀ v ∈ l, v ≤ 1) : l.foldr max 0 ≤ 1 := by
  induction l with
  | nil => simp
  | cons v t ih =>
    simp only [List.foldr_cons]
    exact max_le (h v (by simp)) (ih (fun x hx => h x (by simp [hx])))

/-- On a duplicate-free cluster the maximal multiplicity is at most 1, so the
`freq > 1` test of the center selection can never succeed. -/
theorem maxCount_le_one {l : List ℚ} (h : l.Nodup) : maxCount l ≤ 1 := by
  refine foldr_max_le_one _ ?_
  intro v hv
  obtain ⟨x, _, rfl⟩ := List.mem_map.1 hv
  exact List.nodup_iff_count_le_one.1 h x

theorem countP_flatten_eq_one (L : List (List ℚ)) (h : L.flatten.Nodup) (x : ℚ)
    (hx : x ∈ L.flatten) : L.countP (fun c => decide (x ∈ c)) = 1 := by
  induction L with
  | nil => simp at hx
  | cons c rest ih =>
    simp only [List.flatten_cons] at h hx
    have hnd := List.nodup_append.1 h
    rw [List.countP_cons]
    by_cases hxc : x ∈ c
    · have h0 : rest.countP (fun c => decide (x ∈ c)) = 0 := by
        rw [List.countP_eq_zero]
        intro cl hcl
        simp only [decide_eq_true_eq]
        intro hxcl
        exact hnd.2.2 hxc (List.mem_flatten.2 ⟨cl, hcl, hxcl⟩)
      simp [h0, hxc]
    · have hxr : x ∈ rest.flatten := by
        rcases List.mem_append.1 hx with h' | h'
        · exact absurd h' hxc
        · exact h'
      simp [ih hnd.2.1 hxr, hxc]

/-! ## Claims on the Temporal Clustering Engine -/

/-- C6: because the clustering step operates on `sorted(set(timestamps))`,
every value of every cluster has multiplicity at most 1, so the
most-frequent-value branch of center selection (`freq > 1`) is unreachable and
the center of every produced cluster is the statistical median of the
cluster's distinct values truncated to an integer. -/
theorem claim_mode_branch_unreachable :
    (∀ (ts : List ℚ) (w : ℚ), ∀ c ∈ groupTimestamps w (dedupSort ts),
      maxCount c ≤ 1) ∧
    (∀ (ts : List ℚ) (w mn mx b : ℚ),
      cluster_timestamps_with_duration ts w mn mx b =
        (groupTimestamps w (dedupSort ts)).map (fun c =>
          (pyTrunc (pyMedian c), min (max mn (listMaxD c - listMinD c + b)) mx))) := by
  have key : ∀ (ts : List ℚ) (w : ℚ), ∀ c ∈ groupTimestamps w (dedupSort ts),
      maxCount c ≤ 1 := by
    intro ts w c hc
    exact maxCount_le_one (cluster_nodup w ts c hc)
  refine ⟨key, ?_⟩
  intro ts w mn mx b
  simp only [cluster_timestamps_with_duration]
  refine List.map_congr_left ?_
  intro c hc
  have h1 : ¬ (1 < maxCount c) := by
    have := key ts w c hc
    omega
  simp [h1]

/-- C10: the grouping phase partitions the distinct input timestamps: clusters
are nonempty, concatenate in output order to the sorted deduplicated input,
each distinct timestamp lies in exactly one cluster, and the empty input
yields no clusters and an empty result. -/
theorem claim_clusters_partition :
    (∀ (ts : List ℚ) (w : ℚ), (groupTimestamps w (dedupSort ts)).flatten = dedupSort ts) ∧
    (∀ (ts : List ℚ) (w : ℚ), ∀ c ∈ groupTimestamps w (dedupSort ts), c ≠ []) ∧
    (∀ (ts : List ℚ) (w : ℚ) (x : ℚ), x ∈ ts →
      (groupTimestamps w (dedupSort ts)).countP (fun c => decide (x ∈ c)) = 1) ∧
    (∀ (w mn mx b : ℚ), groupTimestamps w (dedupSort []) = [] ∧
      cluster_timestamps_with_duration [] w mn mx b = []) := by
  refine ⟨?_, ?_, ?_, ?_⟩
  · intro ts w
    exact groupTimestamps_flatten w (dedupSort ts)
  · intro ts w c hc
    exact groupTimestamps_ne_nil w (dedupSort ts) c hc
  · intro ts w x hx
    refine countP_flatten_eq_one _ ?_ x ?_
    · rw [groupTimestamps_flatten]
      exact dedupSort_nodup ts
    · rw [groupTimestamps_flatten]
      exact (dedupSort_mem ts x).2 hx
  · intro w mn mx b
    exact ⟨rfl, rfl⟩

/-- C8: with `min_duration ≤ max_duration`, every produced pair's duration is
`clamp(span + buffer, min_duration, max_duration)` for its cluster's span, and
so lies between `min_duration` and `max_duration`. -/
theorem claim_duration_clamp (ts : List ℚ) (w mn mx b : ℚ) (hmn : mn ≤ mx) :
    ∀ p ∈ cluster_timestamps_with_duration ts w mn mx b,
      (∃ c ∈ groupTimestamps w (dedupSort ts),
        p.2 = min (max mn (listMaxD c - listMinD c + b)) mx) ∧
      mn ≤ p.2 ∧ p.2 ≤ mx := by
  intro p hp
  simp only [cluster_timestamps_with_duration, List.mem_map] at hp
  obtain ⟨c, hc, rfl⟩ := hp
  refine ⟨⟨c, hc, rfl⟩, ?_, min_le_right _ _⟩
  exact le_min (le_max_left _ _) hmn

section

attribute [local semireducible] Rat.sub Rat.add Rat.mul Rat.inv

/-- C7: the grouping is single linkage with a strict threshold — within a
cluster every consecutive pair has gap `< window`, consecutive clusters are
separated by a gap `≥ window`; `[1.0, 2.0, 20.0]` with `window = 5` yields the
clusters `[1, 2]` and `[20]`; and a chained cluster's span can exceed the
window, as `[0, 4, 8]` with `window = 5` shows. -/
theorem claim_single_linkage_grouping :
    (∀ (ts : List ℚ) (w : ℚ), ∀ c ∈ groupTimestamps w (dedupSort ts),
      List.Chain' (fun x y => y - x < w) c) ∧
    (∀ (ts : List ℚ) (w : ℚ),
      List.Chain' (fun c₁ c₂ => ∀ x ∈ c₁.getLast?, ∀ y ∈ c₂.head?, w ≤ y - x)
        (groupTimestamps w (dedupSort ts))) ∧
    groupTimestamps 5 (dedupSort [1, 2, 20]) = [[1, 2], [20]] ∧
    (groupTimestamps 5 (dedupSort [0, 4, 8]) = [[0, 4, 8]] ∧
      listMaxD [0, 4, 8] - listMinD [0, 4, 8] > 5) := by
  refine ⟨?_, ?_, by decide, by decide, by decide⟩
  · intro ts w c hc
    exact groupTimestamps_chain w (dedupSort ts) c hc
  · intro ts w
    exact groupTimestamps_boundary w (dedupSort ts)

/-- Witness for C8 at the spec's own example: timestamps `[10, 12, 13]`,
`window = 5`, `min_duration = 7`, `max_duration = 15`, `buffer = 1` produce
the single pair `(12, 7)`, whose duration lies in `[7, 15]`. -/
theorem claim_duration_clamp_witness :
    (∃ c ∈ groupTimestamps 5 (dedupSort [10, 12, 13]),
      (((12 : ℤ), (7 : ℚ))).2 = min (max 7 (listMaxD c - listMinD c + 1)) 15) ∧
    (7 : ℚ) ≤ (((12 : ℤ), (7 : ℚ))).2 ∧ (((12 : ℤ), (7 : ℚ))).2 ≤ 15 :=
  claim_duration_clamp [10, 12, 13] 5 7 15 1 (by norm_num) ((12 : ℤ), (7 : ℚ))
    (by decide)

end

/-! ## Lemmas on the Task Deduplicator -/

theorem foldl_dedupStep (l : List ClipKey) :
    ∀ (seen tasks : List ClipKey),
      (l.foldl dedupStep (seen, tasks)).2 = tasks ++ firstOccur seen l := by
  induction l with
  | nil => intro seen tasks; simp [firstOccur]
  | cons k ks ih =>
    intro seen tasks
    simp only [List.foldl_cons, firstOccur]
    by_cases hk : k ∈ seen
    · rw [if_pos hk]
      have : dedupStep (seen, tasks) k = (seen, tasks) := by
        simp [dedupStep, hk]
      rw [this, ih]
    · rw [if_neg hk]
      have : dedupStep (seen, tasks) k = (k :: seen, tasks ++ [k]) := by
        simp [dedupStep, hk]
      rw [this, ih]
      simp

theorem dedupTasks_eq_firstOccur (l : List ClipKey) :
    dedupTasks l = firstOccur [] l := by
  unfold dedupTasks
  rw [foldl_dedupStep]
  simp

theorem firstOccur_sublist (l : List ClipKey) :
    ∀ seen : List ClipKey, (firstOccur seen l).Sublist l := by
  induction l with
  | nil => intro seen; simp [firstOccur]
  | cons k ks ih =>
    intro seen
    unfold firstOccur
    by_cases hk : k ∈ seen
    · rw [if_pos hk]
      exact (ih seen).cons k
    · rw [if_neg hk]
      exact (ih (k :: seen)).cons₂ k

theorem firstOccur_mem (l : List ClipKey) :
    ∀ (seen : List ClipKey) (x : ClipKey),
      x ∈ firstOccur seen l ↔ x ∈ l ∧ x ∉ seen := by
  induction l with
  | nil => intro seen x; simp [firstOccur]
  | cons k ks ih =>
    intro seen x
    unfold firstOccur
    by_cases hk : k ∈ seen
    · rw [if_pos hk, ih]
      constructor
      · rintro ⟨hx, hns⟩
        exact ⟨by simp [hx], hns⟩
      · rintro ⟨hx, hns⟩
        rcases List.mem_cons.1 hx with rfl | hx
        · exact absurd hk hns
        · exact ⟨hx, hns⟩
    · rw [if_neg hk]
      constructor
      · intro hx
        rcases List.mem_cons.1 hx with rfl | hx
        · exact ⟨by simp, hk⟩
        · have := (ih (k :: seen) x).1 hx
          exact ⟨by simp [this.1], fun hs => this.2 (by simp [hs])⟩
      · rintro ⟨hx, hns⟩
        rcases List.mem_cons.1 hx with rfl | hx
        · simp
        · by_cases hxk : x = k
          · subst hxk; simp
          · refine List.mem_cons.2 (Or.inr ((ih (k :: seen) x).2 ⟨hx, ?_⟩))
            simp [hxk, hns]

theorem firstOccur_nodup (l : List ClipKey) :
    ∀ seen : List ClipKey, (firstOccur seen l).Nodup := by
  induction l with
  | nil => intro seen; simp [firstOccur]
  | cons k ks ih =>
    intro seen
    unfold firstOccur
    by_cases hk : k ∈ seen
    · rw [if_pos hk]; exact ih seen
    · rw [if_neg hk]
      refine List.nodup_cons.2 ⟨?_, ih (k :: seen)⟩
      intro hmem
      exact ((firstOccur_mem ks (k :: seen) k).1 hmem).2 (by simp)

theorem firstOccurrences_cons (k : ClipKey) (ks : List ClipKey) :
    firstOccurrences (k :: ks) =
      k :: firstOccurrences (ks.filter (fun y => y ≠ k)) := by
  rw [firstOccurrences]

theorem firstOccur_eq_firstOccurrences (l : List ClipKey) :
    ∀ seen : List ClipKey,
      firstOccur seen l = firstOccurrences (l.filter (fun y => y ∉ seen)) := by
  induction l with
  | nil => intro seen; simp [firstOccur, firstOccurrences]
  | cons k ks ih =>
    intro seen
    unfold firstOccur
    by_cases hk : k ∈ seen
    · rw [if_pos hk, ih seen]
      have : (k :: ks).filter (fun y => decide (y ∉ seen)) =
          ks.filter (fun y => decide (y ∉ seen)) := by
        simp [List.filter_cons, hk]
      rw [this]
    · rw [if_neg hk, ih (k :: seen)]
      have h1 : (k :: ks).filter (fun y => decide (y ∉ seen)) =
          k :: ks.filter (fun y => decide (y ∉ seen)) := by
        simp [List.filter_cons, hk]
      rw [h1, firstOccurrences_cons, List.filter_filter]
      congr 1
      refine congrArg firstOccurrences (List.filter_congr ?_)
      intro y _
      rw [← Bool.decide_and, decide_eq_decide]
      simp only [List.mem_cons, not_or]

/-! ## Claim on the Task Deduplicator -/

/-- C9: the `tasks`/`seen` loop emits each distinct `(video_id, center,
duration)` triple exactly once, as a subsequence of the input consisting of
the first occurrence of each distinct key (first-seen order), covering exactly
the keys present in the input. -/
theorem claim_dedup_first_seen :
    ∀ l : List ClipKey,
      (dedupTasks l).Nodup ∧
      (dedupTasks l).Sublist l ∧
      (∀ x, x ∈ dedupTasks l ↔ x ∈ l) ∧
      dedupTasks l = firstOccurrences l := by
  intro l
  rw [dedupTasks_eq_firstOccur]
  refine ⟨firstOccur_nodup l [], firstOccur_sublist l [], ?_, ?_⟩
  · intro x
    rw [firstOccur_mem]
    simp
  · rw [firstOccur_eq_firstOccurrences]
    simp

/-! ## Lemmas on the decimal rendering and the filename format -/

theorem digitChar_toNat {d : ℕ} (h : d < 10) : (digitChar d).toNat = 48 + d := by
  have e0 : ('0').toNat = 48 := rfl
  have e1 : ('1').toNat = 49 := rfl
  have e2 : ('2').toNat = 50 := rfl
  have e3 : ('3').toNat = 51 := rfl
  have e4 : ('4').toNat = 52 := rfl
  have e5 : ('5').toNat = 53 := rfl
  have e6 : ('6').toNat = 54 := rfl
  have e7 : ('7').toNat = 55 := rfl
  have e8 : ('8').toNat = 56 := rfl
  have e9 : ('9').toNat = 57 := rfl
  unfold digitChar
  repeat' split
  all_goals omega

theorem natDecAux_append : ∀ (fuel n : ℕ) (acc : List Char),
    natDecAux fuel n acc = natDecAux fuel n [] ++ acc := by
  intro fuel
  induction fuel with
  | zero => intro n acc; simp [natDecAux]
  | succ f ih =>
    intro n acc
    unfold natDecAux
    by_cases h : n < 10
    · simp [h]
    · rw [if_neg h, if_neg h, ih (n / 10) (digitChar (n % 10) :: acc),
        ih (n / 10) [digitChar (n % 10)]]
      simp

theorem natDecAux_digits : ∀ (fuel n : ℕ) (acc : List Char),
    (∀ ch ∈ acc, 48 ≤ ch.toNat ∧ ch.toNat ≤ 57) →
    ∀ ch ∈ natDecAux fuel n acc, 48 ≤ ch.toNat ∧ ch.toNat ≤ 57 := by
  intro fuel
  induction fuel with
  | zero => intro n acc hacc ch hch; exact hacc ch hch
  | succ f ih =>
    intro n acc hacc ch hch
    unfold natDecAux at hch
    by_cases h : n < 10
    · rw [if_pos h] at hch
      rcases List.mem_cons.1 hch with rfl | hch
      · rw [digitChar_toNat h]; omega
      · exact hacc ch hch
    · rw [if_neg h] at hch
      refine ih (n / 10) (digitChar (n % 10) :: acc) ?_ ch hch
      intro ch' hch'
      rcases List.mem_cons.1 hch' with rfl | hch'
      · rw [digitChar_toNat (Nat.mod_lt n (by omega))]; omega
      · exact hacc ch' hch'

/-- The value a decimal digit string denotes, used to invert `natDecAux`. -/
def interpDec (l : List Char) : ℕ :=
  l.foldl (fun a ch => 10 * a + (ch.toNat - 48)) 0

theorem interpDec_natDecAux : ∀ (fuel n : ℕ), n < fuel →
    interpDec (natDecAux fuel n []) = n := by
  intro fuel
  induction fuel with
  | zero => intro n h; omega
  | succ f ih =>
    intro n h
    unfold natDecAux
    by_cases h10 : n < 10
    · rw [if_pos h10]
      simp [interpDec, digitChar_toNat h10]
    · rw [if_neg h10, natDecAux_append]
      have hdiv : n / 10 < f := by omega
      have hmod : n % 10 < 10 := Nat.mod_lt n (by omega)
      simp only [interpDec, List.foldl_append, List.foldl_cons, List.foldl_nil]
      have hpre : (natDecAux f (n / 10) []).foldl
          (fun a ch => 10 * a + (ch.toNat - 48)) 0 = n / 10 := ih (n / 10) hdiv
      rw [hpre, digitChar_toNat hmod]
      omega

theorem interpDec_natDecRepr (n : ℕ) : interpDec (natDecRepr n) = n :=
  interpDec_natDecAux (n + 1) n (Nat.lt_succ_self n)

theorem natDecRepr_inj {a b : ℕ} (h : natDecRepr a = natDecRepr b) : a = b := by
  have ha := interpDec_natDecRepr a
  have hb := interpDec_natDecRepr b
  rw [h] at ha
  omega

theorem natDecRepr_digits (n : ℕ) :
    ∀ ch ∈ natDecRepr n, 48 ≤ ch.toNat ∧ ch.toNat ≤ 57 :=
  natDecAux_digits (n + 1) n [] (by simp)

theorem natDecRepr_ne_nil (n : ℕ) : natDecRepr n ≠ [] := by
  unfold natDecRepr natDecAux
  by_cases h : n < 10
  · simp [h]
  · rw [if_neg h, natDecAux_append]
    simp

theorem intDecRepr_chars (n : ℤ) :
    ∀ ch ∈ intDecRepr n, ch.toNat = 45 ∨ (48 ≤ ch.toNat ∧ ch.toNat ≤ 57) := by
  intro ch hch
  unfold intDecRepr at hch
  by_cases h : n < 0
  · rw [if_pos h] at hch
    rcases List.mem_cons.1 hch with rfl | hch
    · left; rfl
    · right; exact natDecRepr_digits n.natAbs ch hch
  · rw [if_neg h] at hch
    right; exact natDecRepr_digits n.natAbs ch hch

theorem s_not_mem_intDecRepr (n : ℤ) : ('s') ∉ intDecRepr n := by
  intro h
  have he : ('s').toNat = 115 := rfl
  rcases intDecRepr_chars n _ h with h' | h' <;> omega

theorem underscore_not_mem_intDecRepr (n : ℤ) : ('_') ∉ intDecRepr n := by
  intro h
  have he : ('_').toNat = 95 := rfl
  rcases intDecRepr_chars n _ h with h' | h' <;> omega

theorem intDecRepr_inj {a b : ℤ} (h : intDecRepr a = intDecRepr b) : a = b := by
  unfold intDecRepr at h
  by_cases ha : a < 0 <;> by_cases hb : b < 0
  · rw [if_pos ha, if_pos hb] at h
    simp only [List.cons.injEq, true_and] at h
    have := natDecRepr_inj h
    omega
  · rw [if_pos ha, if_neg hb] at h
    exfalso
    cases hd : natDecRepr b.natAbs with
    | nil => exact natDecRepr_ne_nil b.natAbs hd
    | cons ch r =>
      rw [hd] at h
      have hch : ch ∈ natDecRepr b.natAbs := by rw [hd]; simp
      have := (natDecRepr_digits b.natAbs ch hch).1
      have hm : ('-') = ch := (List.cons.injEq .. ▸ h).1
      have he : ('-').toNat = 45 := rfl
      rw [← hm] at this
      omega
  · rw [if_neg ha, if_pos hb] at h
    exfalso
    cases hd : natDecRepr a.natAbs with
    | nil => exact natDecRepr_ne_nil a.natAbs hd
    | cons ch r =>
      rw [hd] at h
      have hch : ch ∈ natDecRepr a.natAbs := by rw [hd]; simp
      have := (natDecRepr_digits a.natAbs ch hch).1
      have hm : ch = ('-') := (List.cons.injEq .. ▸ h).1
      have he : ('-').toNat = 45 := rfl
      rw [hm] at this
      omega
  · rw [if_neg ha, if_neg hb] at h
    have := natDecRepr_inj h
    omega

/-- Cancellation at a separator: two lists free of the separator, each followed
by the separator and a remainder, agree as appends only componentwise. -/
theorem append_sep_inj {sep : Char} :
    ∀ {A A' r r' : List Char}, sep ∉ A → sep ∉ A' →
      A ++ sep :: r = A' ++ sep :: r' → A = A' ∧ r = r' := by
  intro A
  induction A with
  | nil =>
    intro A' r r' _ hA' h
    cases A' with
    | nil => simpa using h
    | cons ch t =>
      exfalso
      simp only [List.nil_append, List.cons_append, List.cons.injEq] at h
      exact hA' (h.1 ▸ List.mem_cons_self ch t)
  | cons ch t ih =>
    intro A' r r' hA hA' h
    cases A' with
    | nil =>
      exfalso
      simp only [List.cons_append, List.nil_append, List.cons.injEq] at h
      exact hA (h.1 ▸ List.mem_cons_self ch t)
    | cons ch' t' =>
      simp only [List.cons_append, List.cons.injEq] at h
      obtain ⟨rfl, h2⟩ := h
      obtain ⟨h3, h4⟩ := ih (fun hm => hA (List.mem_cons_of_mem _ hm))
        (fun hm => hA' (List.mem_cons_of_mem _ hm)) h2
      exact ⟨by rw [h3], h4⟩

theorem output_filename_data (v : String) (c d : ℚ) :
    (output_filename v c d).data =
      v.data ++ '_' :: (intDecRepr (pyTrunc c) ++
        's' :: '_' :: (intDecRepr (pyTrunc d) ++ ['s', '.', 'm', 'p', '4'])) := by
  simp only [output_filename, String.data_append]
  simp [List.append_assoc]

theorem pyTrunc_intCast (n : ℤ) : pyTrunc (n : ℚ) = n := by
  unfold pyTrunc
  rw [Rat.intCast_num, Rat.intCast_den]
  exact Int.tdiv_one n

/-! ## Claim on output-path collisions -/

section

attribute [local semireducible] Rat.sub Rat.add Rat.mul Rat.inv

/-- Counterexample to C1: with timestamps `[0.1, 0.2, 0.5]` for one video,
`window = 0.25`, `min_duration = 0`, `max_duration = 10`, `buffer = 0`, the
deduplicator emits two distinct ClipSpecs — `("v", 0, 0.1)` and `("v", 0, 0)`
— whose output filenames are both `"v_0s_0s.mp4"`: the dedup-key list is
duplicate-free yet the derived path list is not. -/
theorem claim_path_collision_cex :
    (sampler_tasks [(("v"), [1/10, 2/10, 5/10])] (1/4) 0 10 0).Nodup ∧
    ¬ ((sampler_tasks [(("v"), [1/10, 2/10, 5/10])] (1/4) 0 10 0).map
        key_filename).Nodup := by
  constructor <;> decide

end

/-- C1 as amended: two ClipSpecs map to the same output path exactly when they
agree on `video_id`, on `int(center)` and on `int(duration)`; the dedup key
compares the exact duration, so distinct keys whose durations differ only in
the fractional part (with equal centers) do collide, and key uniqueness
implies path uniqueness only when distinct emitted durations always truncate
to distinct integers. -/
theorem claim_path_collision_amended :
    (∀ (v : String) (c d : ℚ) (v' : String) (c' d' : ℚ),
      output_filename v c d = output_filename v' c' d' ↔
        (v = v' ∧ pyTrunc c = pyTrunc c' ∧ pyTrunc d = pyTrunc d')) ∧
    (∀ k k' : ClipKey, key_filename k = key_filename k' ↔
        (k.1 = k'.1 ∧ k.2.1 = k'.2.1 ∧ pyTrunc k.2.2 = pyTrunc k'.2.2)) := by
  have main : ∀ (v : String) (c d : ℚ) (v' : String) (c' d' : ℚ),
      output_filename v c d = output_filename v' c' d' ↔
        (v = v' ∧ pyTrunc c = pyTrunc c' ∧ pyTrunc d = pyTrunc d') := by
    intro v c d v' c' d'
    constructor
    · intro h
      have hd := (String.ext_iff.1 h)
      rw [output_filename_data, output_filename_data] at hd
      have hr := congrArg List.reverse hd
      simp only [List.reverse_append, List.reverse_cons, List.reverse_nil,
        List.append_assoc, List.nil_append, List.cons_append,
        List.singleton_append] at hr
      simp only [List.cons.injEq, true_and] at hr
      obtain ⟨hB, hrest⟩ := append_sep_inj
        (by simpa using underscore_not_mem_intDecRepr (pyTrunc d))
        (by simpa using underscore_not_mem_intDecRepr (pyTrunc d')) hr
      simp only [List.cons.injEq, true_and] at hrest
      obtain ⟨hA, hv⟩ := append_sep_inj
        (by simpa using underscore_not_mem_intDecRepr (pyTrunc c))
        (by simpa using underscore_not_mem_intDecRepr (pyTrunc c')) hrest
      refine ⟨String.ext_iff.2 (List.reverse_inj.1 hv), ?_, ?_⟩
      · exact intDecRepr_inj (List.reverse_inj.1 hA)
      · exact intDecRepr_inj (List.reverse_inj.1 hB)
    · rintro ⟨rfl, h2, h3⟩
      unfold output_filename
      rw [h2, h3]
  refine ⟨main, ?_⟩
  intro k k'
  unfold key_filename
  rw [main]
  constructor
  · rintro ⟨h1, h2, h3⟩
    rw [pyTrunc_intCast, pyTrunc_intCast] at h2
    exact ⟨h1, h2, h3⟩
  · rintro ⟨h1, h2, h3⟩
    rw [pyTrunc_intCast, pyTrunc_intCast]
    exact ⟨h1, h2, h3⟩

/-! ## The Validity Prober (`is_valid_video_ffprobe`, `check_video_simple`)

The external ffprobe invocation is abstracted as its completed result: exit
status and captured stdout; `none` at the `Option ProcResult` level models
`subprocess.TimeoutExpired`, which can only occur when the invocation passes
a `timeout` argument. -/

/-- A completed `subprocess.run` invocation: exit status and captured
standard output (decoded). -/
structure ProcResult where
  returncode : ℤ
  stdout : String
deriving DecidableEq

/-- The decimal value of one digit character, `none` for a non-digit. -/
def digitVal (ch : Char) : Option ℕ :=
  if 48 ≤ ch.toNat ∧ ch.toNat ≤ 57 then some (ch.toNat - 48) else none

/-- The value of a nonempty all-digit character run, else `none`. -/
def decDigitsVal (l : List Char) : Option ℕ :=
  if l.isEmpty then none
  else l.foldl (fun a ch => a.bind (fun x => (digitVal ch).map (fun d => 10 * x + d)))
    (some 0)

/-- Python `str.strip()`: drop whitespace from both ends. -/
def pyStrip (s : String) : String :=
  ⟨((s.data.dropWhile Char.isWhitespace).reverse.dropWhile
      Char.isWhitespace).reverse⟩

/-- Python `int(s)` on a string: surrounding whitespace ignored, optional
sign, decimal digits; `none` models the `ValueError`.  (Python additionally
accepts underscore digit grouping; no claim depends on that detail.) -/
def pyParseInt (s : String) : Option ℤ :=
  match (pyStrip s).data with
  | '-' :: rest => (decDigitsVal rest).map (fun n => -(n : ℤ))
  | '+' :: rest => (decDigitsVal rest).map (fun n => (n : ℤ))
  | l => (decDigitsVal l).map (fun n => (n : ℤ))

/-- The `timeout` keyword of the ffprobe `subprocess.run` call inside
`is_valid_video_ffprobe` (both ava_sampler.py and ava_trimmer.py): no timeout
is passed, so a hung probe blocks the worker indefinitely. -/
def samplerProbeTimeout : Option ℕ := none

/-- The `timeout` keyword of the ffprobe `subprocess.run` call inside
`check_video_simple` (video_checker.py): 10 seconds. -/
def checkerProbeTimeout : Option ℕ := some 10

/-- `is_valid_video_ffprobe(path)` applied to the completed probe: parse
`result.stdout.decode().strip()` as an int and test `> 0`; the bare `except:`
turns any parse failure into `False`.  The exit status is never consulted. -/
def is_valid_video_ffprobe (r : ProcResult) : Bool :=
  match pyParseInt r.stdout with
  | some n => decide (0 < n)
  | none => false

/-- The dict `check_video_simple` returns, abstracted to its
`"status"`/`"frames"`/`"error"` content. -/
inductive CheckOutcome
  | ok (frames : ℤ)
  | err (msg : String)
deriving DecidableEq

/-- `check_video_simple(path)` applied to the probe's result; `none` models
`TimeoutExpired` from the 10-second timeout.  A nonzero exit reports an
error; then the frame count is parsed (a `ValueError` falls into the generic
`except Exception` branch) and `frames > 0` decides OK. -/
def check_video_simple (r : Option ProcResult) : CheckOutcome :=
  match r with
  | none => .err ("Timeout")
  | some p =>
    if p.returncode ≠ 0 then .err ("Cannot read video")
    else
      match pyParseInt p.stdout with
      | none => .err ("invalid literal for int()")
      | some frames => if 0 < frames then .ok frames else .err ("No frames found")

/-! ## The extraction and trimming workers

`extract_clip` (ava_sampler.py) and `trim_video` (ava_trimmer.py) are
effectful; their environment is abstracted: the filesystem is an existence
predicate, the av decode/encode block (resp. the ffmpeg subprocess) is an
oracle returning the frames written (resp. unit) or the exception it raised
— recording whether the output file had been created before the raise — and
the two validity probes are oracle verdicts. -/

/-- A worker's reported outcome, abstracting the returned f-string:
`extracted` stands for the sampler's "Extracted"/the trimmer's "Trimmed"
success line. -/
inductive Outcome
  | missingAsset (video_id : String)
  | extracted (filename : String)
  | corrupted (filename : String)
  | failed (msg : String)
  | skipped (filename : String)
deriving DecidableEq

/-- The visible effect of one task: the report, whether a file is present at
the destination path afterwards, and whether extraction work (decode/encode
or ffmpeg) was performed. -/
structure TaskResult where
  outcome : Outcome
  destExists : Bool
  extractionRan : Bool
deriving DecidableEq

/-- An exception raised inside a worker's `try`: the captured message, and
whether the output file had already been created (left partial). -/
structure WorkerErr where
  msg : String
  madeFile : Bool
deriving DecidableEq

/-- `VIDEO_DIR` of ava_sampler.py. -/
def VIDEO_DIR : String := "/home/Aaron/datasets/ava/videos/trainval"

/-- `OUTPUT_DIR` of ava_sampler.py. -/
def OUTPUT_DIR : String := "/home/Aaron/datasets/ava/sampled_clips"

/-- `find_video_file(video_id)`: the first existing candidate among the three
extension candidates, else `None`; `fsExists` abstracts `os.path.exists`. -/
def find_video_file (fsExists : String → Bool) (video_id : String) : Option String :=
  [(".mp4"), (".mkv"), (".webm")].findSome? (fun ext =>
    if fsExists (VIDEO_DIR ++ ("/") ++ video_id ++ ext) then
      some (VIDEO_DIR ++ ("/") ++ video_id ++ ext)
    else none)

/-- The destination path `os.path.join(OUTPUT_DIR, output_filename)` of one
sampler task. -/
def sampler_output_path (t : String × ℚ × ℚ) : String :=
  OUTPUT_DIR ++ ("/") ++ output_filename t.1 t.2.1 t.2.2

/-- The environment one `extract_clip` task runs in.  `fsExists` is the
filesystem at task start (consulted by `find_video_file`; it also tells
whether the destination already exists).  `destValidPre` is the verdict the
Validity Prober would give on a pre-existing destination — `extract_clip`
never asks for it.  `runs` is the av decode/encode block's result.
`destValidPost` is `is_valid_video_ffprobe` on the freshly written file. -/
structure SamplerWorld where
  fsExists : String → Bool
  destValidPre : Bool
  runs : Except WorkerErr ℕ
  destValidPost : Bool

/-- `extract_clip(task)` of ava_sampler.py.  There is no idempotency check:
whenever the source resolves, the av block runs.  On success,
`frames_written > 0 and is_valid_video_ffprobe(output_path)` decides
Extracted versus Corrupted — the corrupt file is removed.  The `except`
branch reports the error without any cleanup, so a partially written file
stays. -/
def extract_clip (w : SamplerWorld) (task : String × ℚ × ℚ) : TaskResult :=
  match find_video_file w.fsExists task.1 with
  | none => ⟨.missingAsset task.1, w.fsExists (sampler_output_path task), false⟩
  | some _ =>
    match w.runs with
    | .error e =>
      ⟨.failed e.msg, w.fsExists (sampler_output_path task) || e.madeFile, true⟩
    | .ok frames =>
      if 0 < frames ∧ w.destValidPost = true then
        ⟨.extracted (output_filename task.1 task.2.1 task.2.2), true, true⟩
      else
        ⟨.corrupted (output_filename task.1 task.2.1 task.2.2), false, true⟩

/-- The environment one `trim_video` task runs in: whether the destination
exists before the task and how it would probe, the ffmpeg invocation's
result, and the probe verdict on the file ffmpeg wrote. -/
structure TrimWorld where
  destExists : Bool
  destValidPre : Bool
  runs : Except WorkerErr Unit
  destValidPost : Bool

/-- `trim_video(file)` of ava_trimmer.py.  Skip gate: destination exists and
probes valid.  Otherwise ffmpeg runs: on success the post-probe decides
Trimmed versus Corrupted, but the corrupt output is NOT removed (the removal
is commented out in the source); on exception any file at the destination is
removed and Failed is returned. -/
def trim_video (w : TrimWorld) (file : String) : TaskResult :=
  if w.destExists && w.destValidPre then ⟨.skipped file, true, false⟩
  else
    match w.runs with
    | .error e => ⟨.failed e.msg, false, true⟩
    | .ok _ =>
      if w.destValidPost then ⟨.extracted file, true, true⟩
      else ⟨.corrupted file, true, true⟩

theorem check_video_simple_some (p : ProcResult) :
    check_video_simple (some p) =
      if p.returncode ≠ 0 then CheckOutcome.err ("Cannot read video")
      else
        match pyParseInt p.stdout with
        | none => CheckOutcome.err ("invalid literal for int()")
        | some frames =>
          if 0 < frames then CheckOutcome.ok frames
          else CheckOutcome.err ("No frames found") := rfl

/-! ## Claims on the workers and the prober -/

/-- Counterexample to C2: a sampler task whose source resolves, whose
destination already exists (`fsExists` is constantly true) and would probe
valid (`destValidPre = true`), is still fully extracted — the outcome is
Extracted, not Skipped, and the extraction work runs. -/
theorem claim_skip_gate_cex :
    ((⟨fun _ => true, true, Except.ok 3, true⟩ : SamplerWorld).fsExists
      (sampler_output_path (("v"), 12, 7)) = true) ∧
    ((⟨fun _ => true, true, Except.ok 3, true⟩ : SamplerWorld).destValidPre = true) ∧
    (extract_clip ⟨fun _ => true, true, Except.ok 3, true⟩ (("v"), 12, 7)).outcome =
      Outcome.extracted (output_filename ("v") 12 7) ∧
    (extract_clip ⟨fun _ => true, true, Except.ok 3, true⟩
      (("v"), 12, 7)).extractionRan = true := by
  refine ⟨rfl, rfl, ?_, ?_⟩ <;> decide

/-- C2 as amended: the idempotency gate exists only in the trimmer.
`trim_video` returns Skipped without running ffmpeg when the destination
exists and probes valid, and a successful (Trimmed or Skipped) task leaves a
destination the prober judged valid — so a second run over unchanged assets
meets the gate and is Skipped for every such task.  The sampler's
`extract_clip` has no gate: it never returns Skipped and always performs the
extraction when the source resolves. -/
theorem claim_skip_gate_amended :
    (∀ (w : TrimWorld) (f : String), w.destExists = true → w.destValidPre = true →
      trim_video w f = ⟨Outcome.skipped f, true, false⟩) ∧
    (∀ (w : TrimWorld) (f : String),
      ((trim_video w f).outcome = Outcome.extracted f →
        (trim_video w f).destExists = true ∧ w.destValidPost = true) ∧
      ((trim_video w f).outcome = Outcome.skipped f →
        (trim_video w f).destExists = true ∧ w.destValidPre = true)) ∧
    (∀ (w : SamplerWorld) (t : String × ℚ × ℚ) (s : String),
      (extract_clip w t).outcome ≠ Outcome.skipped s) ∧
    (∀ (w : SamplerWorld) (t : String × ℚ × ℚ),
      (find_video_file w.fsExists t.1).isSome = true →
        (extract_clip w t).extractionRan = true) := by
  refine ⟨?_, ?_, ?_, ?_⟩
  · intro w f h1 h2
    simp [trim_video, h1, h2]
  · intro w f
    unfold trim_video
    by_cases hgate : w.destExists && w.destValidPre
    · rw [if_pos hgate]
      constructor
      · intro h; simp at h
      · intro _
        have h2 := hgate
        simp only [Bool.and_eq_true] at h2
        exact ⟨rfl, h2.2⟩
    · rw [if_neg hgate]
      cases w.runs with
      | error e =>
        constructor <;> (intro h; simp at h)
      | ok u =>
        by_cases hpost : w.destValidPost
        · rw [if_pos hpost]
          exact ⟨fun _ => ⟨rfl, hpost⟩, fun h => by simp at h⟩
        · rw [if_neg hpost]
          constructor <;> (intro h; simp at h)
  · intro w t s
    unfold extract_clip
    cases find_video_file w.fsExists t.1 with
    | none => simp
    | some p =>
      cases w.runs with
      | error e => simp
      | ok frames =>
        by_cases hc : 0 < frames ∧ w.destValidPost = true
        · simp [hc]
        · simp [hc]
  · intro w t h
    unfold extract_clip
    cases hf : find_video_file w.fsExists t.1 with
    | none => rw [hf] at h; simp at h
    | some p =>
      cases w.runs with
      | error e => rfl
      | ok frames =>
        by_cases hc : 0 < frames ∧ w.destValidPost = true
        · simp [hc]
        · simp [hc]

/-- Counterexample to C3: an exception inside the sampler's av block, raised
after the output container was created, leaves the partial file at the
destination — the task returns Failed with the message, yet
`destExists = true` even though no file was there at task start. -/
theorem claim_failed_cleanup_cex :
    extract_clip
      ⟨fun p => p == VIDEO_DIR ++ ("/") ++ ("v") ++ (".mp4"), false,
        Except.error ⟨("boom"), true⟩, false⟩ (("v"), 12, 7) =
      ⟨Outcome.failed ("boom"), true, true⟩ ∧
    ((fun p => p == VIDEO_DIR ++ ("/") ++ ("v") ++ (".mp4"))
      (sampler_output_path (("v"), 12, 7)) = false) := by
  constructor <;> decide

/-- C3 as amended: both workers catch an unexpected exception and return
Failed carrying the captured message, but only the trimmer removes a partial
destination file (no file remains after its Failed tasks); the sampler
performs no cleanup, so the destination holds a file exactly when one
pre-existed or the failed run created one. -/
theorem claim_failed_cleanup_amended :
    (∀ (w : SamplerWorld) (t : String × ℚ × ℚ) (e : WorkerErr),
      w.runs = Except.error e → (find_video_file w.fsExists t.1).isSome = true →
      (extract_clip w t).outcome = Outcome.failed e.msg ∧
      (extract_clip w t).destExists =
        (w.fsExists (sampler_output_path t) || e.madeFile)) ∧
    (∀ (w : TrimWorld) (f : String) (e : WorkerErr),
      w.runs = Except.error e → (w.destExists && w.destValidPre) = false →
      trim_video w f = ⟨Outcome.failed e.msg, false, true⟩) := by
  constructor
  · intro w t e he hf
    unfold extract_clip
    cases hfv : find_video_file w.fsExists t.1 with
    | none => rw [hfv] at hf; simp at hf
    | some p => rw [he]; exact ⟨rfl, rfl⟩
  · intro w f e he hgate
    simp [trim_video, hgate, he]

/-- Counterexample to C4: a trim task whose ffmpeg run succeeds but whose
fresh output probes invalid returns Corrupted while the file remains at the
destination (`destExists = true`): the deletion is commented out. -/
theorem claim_corrupted_cleanup_cex :
    trim_video ⟨false, false, Except.ok (), false⟩ ("f.mp4") =
      ⟨Outcome.corrupted ("f.mp4"), true, true⟩ := by
  decide

/-- C4 as amended: the sampler deletes a freshly written destination that
fails post-hoc validation (including the zero-frames case) and returns
Corrupted with no file left; the trimmer also returns Corrupted on an
invalid fresh output but leaves the file in place. -/
theorem claim_corrupted_cleanup_amended :
    (∀ (w : SamplerWorld) (t : String × ℚ × ℚ) (frames : ℕ),
      w.runs = Except.ok frames → (find_video_file w.fsExists t.1).isSome = true →
      ((frames = 0 ∨ w.destValidPost = false) →
        extract_clip w t =
          ⟨Outcome.corrupted (output_filename t.1 t.2.1 t.2.2), false, true⟩) ∧
      ((0 < frames ∧ w.destValidPost = true) →
        extract_clip w t =
          ⟨Outcome.extracted (output_filename t.1 t.2.1 t.2.2), true, true⟩)) ∧
    (∀ (w : TrimWorld) (f : String),
      (w.destExists && w.destValidPre) = false → w.runs = Except.ok () →
      w.destValidPost = false →
      trim_video w f = ⟨Outcome.corrupted f, true, true⟩) := by
  constructor
  · intro w t frames hr hf
    unfold extract_clip
    cases hfv : find_video_file w.fsExists t.1 with
    | none => rw [hfv] at hf; simp at hf
    | some p =>
      rw [hr]
      constructor
      · intro hbad
        have hc : ¬ (0 < frames ∧ w.destValidPost = true) := by
          rcases hbad with h0 | h0
          · intro hc; omega
          · intro hc; rw [hc.2] at h0; simp at h0
        simp [hc]
      · intro hgood
        simp [hgood]
  · intro w f hgate hr hpost
    simp [trim_video, hgate, hr, hpost]

/-- Counterexample to C5: the prober the workers actually use,
`is_valid_video_ffprobe`, reports valid on a probe that exited nonzero but
printed a positive frame count — "non-zero process exit yields invalid" fails
— and its subprocess invocation passes no timeout at all, so "invoked with a
bounded timeout" fails too. -/
theorem claim_prober_cex :
    is_valid_video_ffprobe ⟨1, ("5")⟩ = true ∧ samplerProbeTimeout = none := by
  constructor <;> decide

/-- C5 as amended: `is_valid_video_ffprobe` returns valid iff the reported
frame count parses as a positive integer, never raising — but it ignores the
exit status entirely and sets no timeout, so a hung probe blocks the worker.
`check_video_simple` (video_checker.py) satisfies the full contract: a
10-second timeout, and OK exactly when the probe exited 0 with a positive
parsed frame count; timeout, nonzero exit and parse failure all map to an
error value, not an exception. -/
theorem claim_prober_amended :
    (∀ r : ProcResult, is_valid_video_ffprobe r = true ↔
      ∃ n : ℤ, pyParseInt r.stdout = some n ∧ 0 < n) ∧
    samplerProbeTimeout = none ∧
    checkerProbeTimeout = some 10 ∧
    (∀ r : Option ProcResult, (∃ f, check_video_simple r = CheckOutcome.ok f) ↔
      (∃ p, r = some p ∧ p.returncode = 0 ∧
        ∃ n : ℤ, pyParseInt p.stdout = some n ∧ 0 < n)) ∧
    check_video_simple none = CheckOutcome.err ("Timeout") := by
  refine ⟨?_, rfl, rfl, ?_, rfl⟩
  · intro r
    unfold is_valid_video_ffprobe
    cases hp : pyParseInt r.stdout with
    | none => simp
    | some n =>
      simp only [decide_eq_true_eq, Option.some.injEq]
      constructor
      · intro h; exact ⟨n, rfl, h⟩
      · rintro ⟨m, rfl, hm⟩; exact hm
  · intro r
    cases r with
    | none =>
      constructor
      · rintro ⟨f, hf⟩
        simp [check_video_simple] at hf
      · rintro ⟨p, hp, _⟩
        simp at hp
    | some p =>
      rw [check_video_simple_some]
      by_cases hrc : p.returncode = 0
      · rw [if_neg (fun h => h hrc)]
        cases hp : pyParseInt p.stdout with
        | none =>
          constructor
          · rintro ⟨f, hf⟩; simp at hf
          · rintro ⟨q, hq, _, m, hm, _⟩
            cases hq
            rw [hp] at hm
            cases hm
        | some n =>
          constructor
          · rintro ⟨f, hf⟩
            by_cases hn : 0 < n
            · exact ⟨p, rfl, hrc, n, hp, hn⟩
            · simp [hn] at hf
          · rintro ⟨q, hq, _, m, hm, hmpos⟩
            cases hq
            rw [hp] at hm
            cases hm
            exact ⟨n, by simp [hmpos]⟩
      · rw [if_pos hrc]
        constructor
        · rintro ⟨f, hf⟩; simp at hf
        · rintro ⟨q, hq, hq0, _⟩
          cases hq
          exact absurd hq0 hrc

end Ava
